import Mathlib

/-
Verification development for the proxy/notice agenda comparison pipeline
(src/qc.py).  The Python functions are shallowly embedded as Lean
definitions over `List Char` / `String`; rectangle coordinates (floats in
the source) are modelled as rationals, which is faithful for the pure
arithmetic comparisons the code performs.  All input strings of interest
are ASCII, so the ASCII readings of Python's `\s`, `\w`, `\d`, `[a-z]`,
`str.lower`, `str.upper`, `str.strip` used below coincide with Python's
Unicode-aware versions on the data the claims quantify over.
-/

namespace QC

/-- ASCII whitespace, as matched by Python's `\s` ('\x0b' is `\v`, '\x0c' is `\f`). -/
def isWs (c : Char) : Bool :=
  c == ' ' || c == '\t' || c == '\n' || c == '\r' || c == '\x0b' || c == '\x0c'

/-- The substitution `re.sub(r'\s+', ' ', text)` as a left-to-right scan:
every maximal run of whitespace characters is replaced by one ' '.
`prevWs` records whether the scanner is inside a whitespace run. -/
def subWsGo (prevWs : Bool) : List Char → List Char
  | [] => []
  | c :: cs =>
    if isWs c then
      if prevWs then subWsGo true cs
      else ' ' :: subWsGo true cs
    else c :: subWsGo false cs

def subWsL (l : List Char) : List Char :=
  subWsGo false l

/-- Python `str.strip()`: remove leading and trailing whitespace. -/
def stripL (l : List Char) : List Char :=
  ((l.dropWhile isWs).reverse.dropWhile isWs).reverse

/-- `collapse_linebreaks` (qc.py line 83-87) on character lists:
`re.sub(r'\s+', ' ', text).strip()`. -/
def collapseL (l : List Char) : List Char :=
  stripL (subWsL l)

/-- `collapse_linebreaks(text)` from qc.py: replace sequences of newlines and
multiple spaces with a single space, keeping case and punctuation. -/
def collapse_linebreaks (s : String) : String :=
  ⟨collapseL s.data⟩

/-- Python `str.strip()` on strings. -/
def stripS (s : String) : String :=
  ⟨stripL s.data⟩

/-- Python `str.lower()` (ASCII). -/
def pyLower (s : String) : String :=
  ⟨s.data.map Char.toLower⟩

/-- Python `str.upper()` (ASCII). -/
def pyUpper (s : String) : String :=
  ⟨s.data.map Char.toUpper⟩

/-- Python `\w` (ASCII): alphanumeric or underscore. -/
def isWordChar (c : Char) : Bool :=
  c.isAlphanum || c == '_'

/-- `re.sub(r'[^\w\s]', '', s)` from compare_texts: drop every character that
is neither a word character nor whitespace. -/
def stripPunc (s : String) : String :=
  ⟨s.data.filter (fun c => isWordChar c || isWs c)⟩

/-! ### The label grammar

`label_pattern = re.compile(r'^\s*(\d{1,2}(?:[a-z])?\.|0\d\)|\d{1,2}\))')`
(qc.py line 27).  The pattern is anchored: without `re.MULTILINE`, `^`
matches only at position 0, so both `label_pattern.match(line)` and
`label_pattern.search(text)` succeed exactly when the string begins with
optional whitespace followed by one of the three alternatives.  Matching is
implemented below with the regex engine's greedy/backtracking semantics. -/

/-- After `\d{1,2}`: the optional `(?:[a-z])?` then the mandatory `'.'`,
greedy (the letter is taken when a `'.'` follows it). -/
def optLetterDot (ds : List Char) : List Char → Option (List Char × List Char)
  | c :: rest =>
    if c.isLower then
      match rest with
      | '.' :: rest2 => some (ds ++ [c, '.'], rest2)
      | _ => none
    else if c == '.' then some (ds ++ ['.'], rest)
    else none
  | [] => none

/-- Alternative `\d{1,2}(?:[a-z])?\.`, greedy on the digit count. -/
def alt1 : List Char → Option (List Char × List Char)
  | d1 :: rest =>
    if d1.isDigit then
      match rest with
      | d2 :: rest2 =>
        if d2.isDigit then
          match optLetterDot [d1, d2] rest2 with
          | some res => some res
          | none => optLetterDot [d1] rest
        else optLetterDot [d1] rest
      | [] => none
    else none
  | [] => none

/-- Alternative `0\d\)`. -/
def alt2 : List Char → Option (List Char × List Char)
  | '0' :: d :: ')' :: rest => if d.isDigit then some (['0', d, ')'], rest) else none
  | _ => none

/-- Alternative `\d{1,2}\)`, greedy on the digit count with backtracking:
two digits then `')'` is tried first; failing that, one digit then `')'`
(so e.g. `"1))"` matches with label `"1)"`).  When the second character is a
digit but no `')'` follows it, the one-digit backtrack would need that digit
to be `')'`, which is impossible, so the match fails. -/
def alt3 : List Char → Option (List Char × List Char)
  | d1 :: rest =>
    if d1.isDigit then
      match rest with
      | d2 :: rest2 =>
        if d2.isDigit then
          match rest2 with
          | ')' :: rest3 => some ([d1, d2, ')'], rest3)
          | _ => none
        else if d2 == ')' then some ([d1, ')'], rest2)
        else none
      | [] => none
    else none
  | [] => none

/-- The alternation, tried left to right as the regex engine does. -/
def tryAlts (l : List Char) : Option (List Char × List Char) :=
  match alt1 l with
  | some r => some r
  | none =>
    match alt2 l with
    | some r => some r
    | none => alt3 l

/-- `label_pattern.match(line)`: `some (group1, rest-of-line)` when the line
starts (after leading whitespace) with a label; `group1` is the matched
label, `rest-of-line` the text after `m.end()`. -/
def matchLabel (line : List Char) : Option (List Char × List Char) :=
  tryAlts (line.dropWhile isWs)

/-- `label_pattern.search(txt)` as used by pick_agenda_clip: since the
pattern is `^`-anchored and MULTILINE is off, the search succeeds exactly
when the whole text begins (after leading whitespace, which may span
newlines) with a label. -/
def labelSearch (s : String) : Bool :=
  (matchLabel s.data).isSome

/-! ### `str.splitlines()` and `split_proposals` -/

/-- A character Python's `str.splitlines()` treats as a line boundary. -/
def isLineBreak (c : Char) : Bool :=
  c == '\n' || c == '\r' || c == '\x0b' || c == '\x0c' ||
  c == '\x1c' || c == '\x1d' || c == '\x1e' || c == '\x85' ||
  c == '\u2028' || c == '\u2029'

/-- Python `str.splitlines()`: `"\r\n"` counts as a single boundary, a
trailing boundary produces no trailing empty line. -/
def splitlinesGo (cur : List Char) : List Char → List (List Char)
  | [] => if cur.isEmpty then [] else [cur.reverse]
  | '\r' :: '\n' :: rest => cur.reverse :: splitlinesGo [] rest
  | c :: rest =>
    if isLineBreak c then cur.reverse :: splitlinesGo [] rest
    else splitlinesGo (c :: cur) rest

def splitlinesL (l : List Char) : List (List Char) :=
  splitlinesGo [] l

/-- Closing an item in split_proposals:
`collapse_linebreaks(" ".join([l.strip() for l in cur_lines if l.strip()]))`. -/
def joinSep (sep : List Char) : List (List Char) → List Char
  | [] => []
  | [x] => x
  | x :: xs => x ++ sep ++ joinSep sep xs

def closeContent (buf : List (List Char)) : String :=
  collapse_linebreaks ⟨joinSep [' '] ((buf.map stripL).filter (fun l => !l.isEmpty))⟩

/-- Closing the in-progress item: `split_proposals` appends
`(cur_label, collapsed content)` when a label is open, nothing otherwise. -/
def closeItem : Option (List Char) → List (List Char) → List (String × String)
  | none, _ => []
  | some lab, buf => [(⟨lab⟩, closeContent buf)]

/-- A non-label line is appended to the buffer of the open item; before the
first label it is skipped (`continue`). -/
def pushLine : Option (List Char) → List (List Char) → List Char → List (List Char)
  | none, buf, _ => buf
  | some _, buf, ln => buf ++ [ln]

/-- The line loop of `split_proposals` (qc.py lines 94-115).  `cur` is the
current label (already stripped), `buf` the buffered raw lines of the
current item.  A label line closes the open item and opens a new one seeded
with the stripped remainder of the line (`[remainder] if remainder else []`). -/
def splitGo : List (List Char) → Option (List Char) → List (List Char) → List (String × String)
  | [], cur, buf => closeItem cur buf
  | ln :: rest, cur, buf =>
    Option.elim (matchLabel ln)
      (splitGo rest cur (pushLine cur buf ln))
      (fun lr =>
        closeItem cur buf ++
          splitGo rest (some (stripL lr.1))
            (if (stripL lr.2).isEmpty then [] else [stripL lr.2]))

/-- `split_proposals(text)`: the ordered list of `(label, content)` items of
the agenda text. -/
def split_proposals (text : String) : List (String × String) :=
  splitGo (splitlinesL text.data) none []

/-! ### `compare_texts` -/

/-- The heuristic mismatch reasons of compare_texts (qc.py lines 126-135),
in the order the code tests them. -/
def caseReason : String := "case-only difference"
def puncReason : String := "punctuation-only difference"
def wsReason : String := "whitespace/linebreak differences only (after collapse)"

def mismatchReasons (a b : String) : List String :=
  (if pyLower a = pyLower b then [caseReason] else []) ++
  (if stripPunc a = stripPunc b then [puncReason] else []) ++
  (if collapse_linebreaks a = collapse_linebreaks b then [wsReason] else [])

/-- `", ".join(reason)`, or the generic text when no heuristic fired. -/
def reasonText (rs : List String) : String :=
  match rs with
  | [] => "content differs"
  | _ => ⟨joinSep (", ".data) (rs.map String.data)⟩

/-- `compare_texts(a, b)` (qc.py lines 117-143), as `(status, reason)`.
The `ndiff` snippet the Python function also returns is presentation-only
output (never inspected by any decision) and is not modelled. -/
def compare_texts (a b : String) : String × String :=
  if a = b then ("MATCH", "Exact match")
  else if a = "" ∧ b ≠ "" then ("MISSING_IN_PROXY", "Label missing in proxy")
  else if a ≠ "" ∧ b = "" then ("MISSING_IN_NOTICE", "Label missing in notice")
  else ("MISMATCH", reasonText (mismatchReasons a b))

/-! ### `build_report`: to_dict, all_labels, comparisons, note block -/

/-- Python dict lookup on an association list whose pairs were inserted in
order (first binding wins, as keys are never inserted twice). -/
def dlookup (k : String) : List (String × String) → Option String
  | [] => none
  | (k2, v) :: rest => if k2 = k then some v else dlookup k rest

/-- The loop of `to_dict` (qc.py lines 178-186): `d` maps stripped labels to
their first content, `order` records first-occurrence order. -/
def toDictGo : List (String × String) → List String → List (String × String) →
    List (String × String) × List String
  | d, order, [] => (d, order)
  | d, order, (lbl, txt) :: rest =>
    let key := stripS lbl
    if dlookup key d = none then toDictGo (d ++ [(key, txt)]) (order ++ [key]) rest
    else toDictGo d order rest

def to_dict (lst : List (String × String)) : List (String × String) × List String :=
  toDictGo [] [] lst

/-- The `all_labels` accumulation loop (qc.py lines 191-197). -/
def addLabels (acc : List String) : List String → List String
  | [] => acc
  | l :: rest => if l ∈ acc then addLabels acc rest else addLabels (acc ++ [l]) rest

def all_labels (pOrder nOrder : List String) : List String :=
  addLabels (addLabels [] pOrder) nOrder

structure Comparison where
  label : String
  proxyText : String
  noticeText : String
  status : String
  reason : String
deriving DecidableEq

/-- One entry of the `comparisons` list (qc.py lines 199-212):
`a = p_dict.get(lbl, "")`, `b = n_dict.get(lbl, "")`. -/
def mkComparison (pDict nDict : List (String × String)) (lbl : String) : Comparison :=
  let a := (dlookup lbl pDict).getD ""
  let b := (dlookup lbl nDict).getD ""
  let sr := compare_texts a b
  ⟨lbl, a, b, sr.1, sr.2⟩

def buildComparisons (pList nList : List (String × String)) : List Comparison :=
  (all_labels (to_dict pList).2 (to_dict nList).2).map
    (mkComparison (to_dict pList).1 (to_dict nList).1)

/-! `extract_note_block` (qc.py lines 160-164):
`re.search(r'\bNOTE\b[:\s-]*(.*)$', text, re.IGNORECASE)`.  Without
DOTALL, `.` excludes `'\n'`; without MULTILINE, `$` matches only at the end
of the string or just before a final `'\n'`.  Hence a candidate `NOTE`
occurrence matches exactly when, after greedily consuming `[:\s-]` characters,
the remaining text contains no `'\n'` except possibly a final one; the
captured group is that remaining text (minus the final newline).  `re.search`
takes the leftmost occurrence for which this succeeds. -/

/-- A character of the class `[:\s-]`. -/
def noteSep (c : Char) : Bool :=
  c == ':' || isWs c || c == '-'

/-- `(.*)$` applied to the text after the `[:\s-]*` run. -/
def dollarCapture (t : List Char) : Option (List Char) :=
  if t.contains '\n' then
    if t.getLast? == some '\n' && !(t.dropLast.contains '\n') then some t.dropLast
    else none
  else some t

/-- Try to match `\bNOTE\b[:\s-]*(.*)$` at the current position;
`prevWord` says whether the preceding character is a word character. -/
def tryNoteAt (prevWord : Bool) : List Char → Option (List Char)
  | c1 :: c2 :: c3 :: c4 :: s =>
    if !prevWord && c1.toLower == 'n' && c2.toLower == 'o' &&
        c3.toLower == 't' && c4.toLower == 'e' &&
        (match s with | [] => true | d :: _ => !isWordChar d) then
      dollarCapture (s.dropWhile noteSep)
    else none
  | _ => none

def noteSearchGo (prevWord : Bool) : List Char → Option (List Char)
  | [] => none
  | c :: rest =>
    match tryNoteAt prevWord (c :: rest) with
    | some g => some g
    | none => noteSearchGo (isWordChar c) rest

def extract_note_block (text : String) : Option (String × String) :=
  match noteSearchGo false text.data with
  | some g => some ("NOTE", collapse_linebreaks ⟨g⟩)
  | none => none

/-- Python `s.startswith(pre)` on character lists. -/
def startsWithL : List Char → List Char → Bool
  | _, [] => true
  | [], _ :: _ => false
  | c :: cs, d :: ds => c == d && startsWithL cs ds

/-- `any(lbl.upper().startswith("NOTE") for lbl, _ in lst)`. -/
def hasNoteLabel (lst : List (String × String)) : Bool :=
  lst.any (fun p => startsWithL (pyUpper p.1).data "NOTE".data)

/-- Merging the note block into an item list (qc.py lines 170-175): appended
only when no existing label already starts with NOTE. -/
def mergeNote (lst : List (String × String)) : Option (String × String) →
    List (String × String)
  | some n => if hasNoteLabel lst then lst else lst ++ [n]
  | none => lst

/-- The comparison list `build_report` produces (qc.py lines 145-212) from
the two raw region texts.  Report rendering (PDF output) is the external
presentation layer and carries no comparison semantics. -/
def build_report (pRaw nRaw : String) (includeNote : Bool) : List Comparison :=
  let pList := split_proposals pRaw
  let nList := split_proposals nRaw
  let pList2 := if includeNote then mergeNote pList (extract_note_block pRaw) else pList
  let nList2 := if includeNote then mergeNote nList (extract_note_block nRaw) else nList
  buildComparisons pList2 nList2

/-! ### Region locator: `find_rectangle_annotation` and `pick_agenda_clip`

A document is modelled as its ordered list of pages; a page carries its
(normalized) bounding rectangle, its annotation rectangles in traversal
order, and its text-extraction function `text : Rect → String`
(`page.get_text("text", clip=r)`).  Coordinates are rationals. -/

structure Rect where
  x0 : ℚ
  y0 : ℚ
  x1 : ℚ
  y1 : ℚ
deriving DecidableEq

structure Page where
  rect : Rect
  annots : List Rect
  text : Rect → String

/-- The size test of qc.py line 38: `(r.x1 - r.x0) > 10 and (r.y1 - r.y0) > 10`
(the additional truthiness test `r and ...` is subsumed: a falsy/empty
rectangle has width or height `≤ 0 < 10`). -/
def bigRect (r : Rect) : Bool :=
  decide (10 < r.x1 - r.x0) && decide (10 < r.y1 - r.y0)

/-- The page loop of `find_rectangle_annotation` with the running page
number. -/
def findAnnotGo (i : Nat) : List Page → Option (Nat × Rect)
  | [] => none
  | p :: rest =>
    match p.annots.find? bigRect with
    | some r => some (i, r)
    | none => findAnnotGo (i + 1) rest

/-- `find_rectangle_annotation(doc)` (qc.py lines 29-43): the first (page,
rectangle) in page order, then annotation order, whose width and height both
exceed 10 points. -/
def find_rectangle_annotation (doc : List Page) : Option (Nat × Rect) :=
  findAnnotGo 0 doc

/-- Expansion by 6 points on each side, clipped to the page bounds
(qc.py lines 59-62). -/
def expandClip (pr r : Rect) : Rect :=
  ⟨max pr.x0 (r.x0 - 6), max pr.y0 (r.y0 - 6), min pr.x1 (r.x1 + 6), min pr.y1 (r.y1 + 6)⟩

/-- `fitz.Rect(0, 0, LEFT_CLIP_WIDTH_PTS, page.rect.height)` with
`LEFT_CLIP_WIDTH_PTS = 540`. -/
def leftClip (p : Page) : Rect :=
  ⟨0, 0, 540, p.rect.y1 - p.rect.y0⟩

/-- The fallback page scan of pick_agenda_clip (qc.py lines 68-74). -/
def findLabelPageGo (i : Nat) : List Page → Option (Nat × Rect × String)
  | [] => none
  | p :: rest =>
    let clip := leftClip p
    let txt := p.text clip
    if labelSearch txt then some (i, clip, txt) else findLabelPageGo (i + 1) rest

/-- `pick_agenda_clip` (qc.py lines 45-81).  The result is `none` exactly in
the two situations where the Python code raises an IndexError instead of
returning: a zero-page document (impossible for a valid PDF, whose page tree
must be non-empty) — modelled so that the fallback `doc[0]` access is
explicit rather than hidden. -/
def pick_agenda_clip (doc : List Page) : Option (Nat × Rect × String) :=
  match find_rectangle_annotation doc with
  | some (pno, rect) =>
    (doc[pno]?).map (fun page =>
      let r2 := expandClip page.rect rect
      (pno, r2, page.text r2))
  | none =>
    match findLabelPageGo 0 doc with
    | some res => some res
    | none =>
      match doc with
      | [] => none
      | p :: _ => some (0, leftClip p, p.text (leftClip p))

/-! ### Spec-side definitions

The following definitions transcribe the *specification's* wording (not the
implementation) and are used to state the claims as refinements. -/

/-- Spec wording (claim C5/C8): a label sequence with duplicates collapsed,
keeping the first occurrence of each label in discovery order. -/
def firstDedup : List String → List String
  | [] => []
  | k :: ks => k :: (firstDedup ks).filter (fun x => x ≠ k)

/-- Spec wording (claim C8): the content of the *first* item of the list
whose stripped label equals `k` — later duplicates ignored. -/
def firstLookup (k : String) : List (String × String) → Option String
  | [] => none
  | (lbl, txt) :: rest => if stripS lbl = k then some txt else firstLookup k rest

/-- Spec wording (claim C6): a marked rectangle whose width and height both
exceed 10 points. -/
def bigAnnotP (r : Rect) : Prop :=
  10 < r.x1 - r.x0 ∧ 10 < r.y1 - r.y0

/-- Spec wording (claim C6, priority 1): the chosen region comes from the
first sufficiently large marked rectangle, in page order then annotation
order, expanded by 6 points per side and clipped to the page bounds. -/
def RegionFromAnnot (doc : List Page) (pno : Nat) (rect : Rect) (txt : String) : Prop :=
  ∃ page, doc[pno]? = some page ∧
    (∀ i q, i < pno → doc[i]? = some q → ∀ r ∈ q.annots, ¬ bigAnnotP r) ∧
    ∃ (j : Nat) (r : Rect), page.annots[j]? = some r ∧ bigAnnotP r ∧
      (∀ (j' : Nat) (r' : Rect), j' < j → page.annots[j']? = some r' → ¬ bigAnnotP r') ∧
      rect = expandClip page.rect r ∧ txt = page.text rect

/-- Spec wording (claim C6, priority 2, amended): no page holds a
sufficiently large marked rectangle, and the chosen page is the first one
whose left-hand clip text starts (after optional leading whitespace) with a
label-grammar match. -/
def RegionFromScan (doc : List Page) (pno : Nat) (rect : Rect) (txt : String) : Prop :=
  (∀ q ∈ doc, ∀ r ∈ q.annots, ¬ bigAnnotP r) ∧
  ∃ page, doc[pno]? = some page ∧ rect = leftClip page ∧ txt = page.text rect ∧
    labelSearch txt = true ∧
    ∀ i q, i < pno → doc[i]? = some q → labelSearch (q.text (leftClip q)) = false

/-- Spec wording (claim C6, priority 3): no annotation and no scanned page
qualifies, and the region degrades to the first page's left-hand clip. -/
def RegionFallback (doc : List Page) (pno : Nat) (rect : Rect) (txt : String) : Prop :=
  (∀ q ∈ doc, ∀ r ∈ q.annots, ¬ bigAnnotP r) ∧
  (∀ q ∈ doc, labelSearch (q.text (leftClip q)) = false) ∧
  pno = 0 ∧ ∃ page, doc[0]? = some page ∧ rect = leftClip page ∧ txt = page.text rect

/-- Well-formedness of collapsed text: every whitespace character is a plain
space and no two adjacent characters are both whitespace.  This is the
invariant `re.sub(r'\s+', ' ', ·)` establishes. -/
def WsNormed (l : List Char) : Prop :=
  (∀ c ∈ l, isWs c = true → c = ' ') ∧
  l.Chain' (fun a b => ¬(isWs a = true ∧ isWs b = true))

/-! Concrete fixtures used by witnesses and counterexamples. -/

/-- A one-page document whose region text is empty. -/
def pageNoLabel : Page :=
  { rect := ⟨0, 0, 612, 792⟩, annots := [], text := fun _ => "" }

/-- A page whose left-clip text contains a label line, but only after a
header line. -/
def pageHeaderLabel : Page :=
  { rect := ⟨0, 0, 612, 792⟩, annots := [],
    text := fun _ => "Meeting Agenda\n1. Elect directors" }

/-- A page whose left-clip text begins directly with a label. -/
def pageDirectLabel : Page :=
  { rect := ⟨0, 0, 612, 792⟩, annots := [], text := fun _ => "2. Ratify auditors" }

/-! ### Idempotence of the baseline collapse -/

theorem head?_dropWhile_not_ws : ∀ (l : List Char) (c : Char),
    (l.dropWhile isWs).head? = some c → isWs c = false := by
  intro l
  induction l with
  | nil => intro c h; simp [List.dropWhile] at h
  | cons a t ih =>
    intro c h
    cases ha : isWs a with
    | true => rw [List.dropWhile_cons, if_pos ha] at h; exact ih c h
    | false =>
      rw [List.dropWhile_cons, if_neg (by simp [ha])] at h
      simp only [List.head?_cons, Option.some.injEq] at h
      subst h; exact ha

theorem dropWhile_eq_self_of_head (l : List Char)
    (h : ∀ c, l.head? = some c → isWs c = false) : l.dropWhile isWs = l := by
  cases l with
  | nil => rfl
  | cons a t =>
    have ha := h a rfl
    rw [List.dropWhile_cons, if_neg (by simp [ha])]

theorem head?_subWsGo_true : ∀ (l : List Char) (d : Char),
    (subWsGo true l).head? = some d → isWs d = false := by
  intro l
  induction l with
  | nil => intro d h; simp [subWsGo] at h
  | cons c cs ih =>
    intro d h
    cases hc : isWs c with
    | true =>
      rw [show subWsGo true (c :: cs) = subWsGo true cs from by simp [subWsGo, hc]] at h
      exact ih d h
    | false =>
      rw [show subWsGo true (c :: cs) = c :: subWsGo false cs from by
        simp [subWsGo, hc]] at h
      simp only [List.head?_cons, Option.some.injEq] at h
      rw [← h]; exact hc

theorem wsNormed_subWsGo : ∀ (l : List Char) (b : Bool), WsNormed (subWsGo b l) := by
  intro l
  induction l with
  | nil => intro b; exact ⟨by simp [subWsGo], by simp [subWsGo]⟩
  | cons c cs ih =>
    intro b
    cases hc : isWs c with
    | true =>
      cases b with
      | true =>
        rw [show subWsGo true (c :: cs) = subWsGo true cs from by simp [subWsGo, hc]]
        exact ih true
      | false =>
        rw [show subWsGo false (c :: cs) = ' ' :: subWsGo true cs from by
          simp [subWsGo, hc]]
        constructor
        · intro x hx hwx
          rcases List.mem_cons.mp hx with rfl | hx2
          · rfl
          · exact (ih true).1 x hx2 hwx
        · rw [List.chain'_cons']
          refine ⟨?_, (ih true).2⟩
          intro y hy hcon
          have hyw : isWs y = false := head?_subWsGo_true cs y (Option.mem_def.mp hy)
          rw [hyw] at hcon
          exact Bool.false_ne_true hcon.2
    | false =>
      rw [show subWsGo b (c :: cs) = c :: subWsGo false cs from by
        cases b <;> simp [subWsGo, hc]]
      constructor
      · intro x hx hwx
        rcases List.mem_cons.mp hx with rfl | hx2
        · rw [hc] at hwx; exact absurd hwx (by simp)
        · exact (ih false).1 x hx2 hwx
      · rw [List.chain'_cons']
        refine ⟨?_, (ih false).2⟩
        intro y _ hcon
        rw [hc] at hcon
        exact Bool.false_ne_true hcon.1

theorem wsNormed_subWsL (l : List Char) : WsNormed (subWsL l) :=
  wsNormed_subWsGo l false

theorem subWsGo_eq_self : ∀ (l : List Char), WsNormed l →
    subWsGo false l = l ∧
      ((∀ d, l.head? = some d → isWs d = false) → subWsGo true l = l) := by
  intro l
  induction l with
  | nil => intro _; exact ⟨rfl, fun _ => rfl⟩
  | cons c cs ih =>
    intro h
    have hcs : WsNormed cs :=
      ⟨fun x hx => h.1 x (List.mem_cons_of_mem _ hx), (List.chain'_cons'.mp h.2).2⟩
    cases hc : isWs c with
    | true =>
      have hsp : c = ' ' := h.1 c (List.mem_cons_self _ _) hc
      have hhead : ∀ d, cs.head? = some d → isWs d = false := by
        intro d hd
        have hR := (List.chain'_cons'.mp h.2).1 d (Option.mem_def.mpr hd)
        cases hdws : isWs d with
        | false => rfl
        | true => exact absurd ⟨hc, hdws⟩ hR
      constructor
      · rw [show subWsGo false (c :: cs) = ' ' :: subWsGo true cs from by
          simp [subWsGo, hc]]
        rw [(ih hcs).2 hhead, hsp]
      · intro hhd
        have := hhd c rfl
        rw [hc] at this
        exact absurd this (by simp)
    | false =>
      have hrec := (ih hcs).1
      constructor
      · rw [show subWsGo false (c :: cs) = c :: subWsGo false cs from by
          simp [subWsGo, hc]]
        rw [hrec]
      · intro _
        rw [show subWsGo true (c :: cs) = c :: subWsGo false cs from by
          simp [subWsGo, hc]]
        rw [hrec]

theorem subWsL_eq_self (l : List Char) (h : WsNormed l) : subWsL l = l :=
  (subWsGo_eq_self l h).1

theorem WsNormed.of_append_right {l₁ l₂ : List Char} (h : WsNormed (l₁ ++ l₂)) :
    WsNormed l₂ :=
  ⟨fun c hc => h.1 c (List.mem_append_right _ hc), h.2.right_of_append⟩

theorem WsNormed.of_append_left {l₁ l₂ : List Char} (h : WsNormed (l₁ ++ l₂)) :
    WsNormed l₁ :=
  ⟨fun c hc => h.1 c (List.mem_append_left _ hc), h.2.left_of_append⟩

theorem stripL_prefix_dropWhile (l : List Char) :
    ∃ t, stripL l ++ t = l.dropWhile isWs := by
  obtain ⟨t, ht⟩ := List.dropWhile_suffix (l := (l.dropWhile isWs).reverse) isWs
  refine ⟨t.reverse, ?_⟩
  have h2 := congrArg List.reverse ht
  simpa [stripL] using h2

theorem wsNormed_stripL {l : List Char} (h : WsNormed l) : WsNormed (stripL l) := by
  obtain ⟨t1, ht1⟩ := List.dropWhile_suffix (l := l) isWs
  rw [← ht1] at h
  have h1 : WsNormed (l.dropWhile isWs) := h.of_append_right
  obtain ⟨t2, ht2⟩ := stripL_prefix_dropWhile l
  rw [← ht2] at h1
  exact h1.of_append_left

theorem head?_stripL_not_ws (l : List Char) : ∀ (c : Char),
    (stripL l).head? = some c → isWs c = false := by
  intro c h
  obtain ⟨t2, ht2⟩ := stripL_prefix_dropWhile l
  cases hs : stripL l with
  | nil => rw [hs] at h; simp at h
  | cons a s =>
    rw [hs] at h ht2
    simp only [List.head?_cons, Option.some.injEq] at h
    have ha : isWs a = false := head?_dropWhile_not_ws l a (by rw [← ht2]; rfl)
    rw [← h]; exact ha

theorem getLast?_stripL_not_ws (l : List Char) : ∀ (c : Char),
    (stripL l).getLast? = some c → isWs c = false := by
  intro c h
  rw [stripL, List.getLast?_reverse] at h
  exact head?_dropWhile_not_ws _ c h

theorem stripL_idem (l : List Char) : stripL (stripL l) = stripL l := by
  have h1 : (stripL l).dropWhile isWs = stripL l :=
    dropWhile_eq_self_of_head _ (head?_stripL_not_ws l)
  rw [stripL, h1]
  have h2 : (stripL l).reverse.dropWhile isWs = (stripL l).reverse := by
    apply dropWhile_eq_self_of_head
    intro c hc
    rw [List.head?_reverse] at hc
    exact getLast?_stripL_not_ws l c hc
  rw [h2, List.reverse_reverse]

theorem collapseL_idem (l : List Char) : collapseL (collapseL l) = collapseL l := by
  have h2 : WsNormed (stripL (subWsL l)) := wsNormed_stripL (wsNormed_subWsL l)
  show stripL (subWsL (stripL (subWsL l))) = stripL (subWsL l)
  rw [subWsL_eq_self _ h2, stripL_idem]

theorem collapse_linebreaks_idem (s : String) :
    collapse_linebreaks (collapse_linebreaks s) = collapse_linebreaks s :=
  congrArg String.mk (collapseL_idem s.data)

/-! ### Dictionary construction and label ordering -/

theorem dlookup_append (k : String) (d1 d2 : List (String × String)) :
    dlookup k (d1 ++ d2) = (dlookup k d1).or (dlookup k d2) := by
  induction d1 with
  | nil => simp [dlookup]
  | cons p rest ih =>
    obtain ⟨k2, v⟩ := p
    by_cases hk : k2 = k <;> simp [dlookup, hk, ih]

theorem toDictGo_fst_lookup (k : String) :
    ∀ (rest d : List (String × String)) (order : List String),
    dlookup k (toDictGo d order rest).1 = (dlookup k d).or (firstLookup k rest) := by
  intro rest
  induction rest with
  | nil =>
    intro d order
    simp [toDictGo, firstLookup, Option.or_none]
  | cons p rs ih =>
    intro d order
    obtain ⟨lbl, txt⟩ := p
    by_cases hin : dlookup (stripS lbl) d = none
    · rw [show toDictGo d order ((lbl, txt) :: rs) =
          toDictGo (d ++ [(stripS lbl, txt)]) (order ++ [stripS lbl]) rs from by
        simp [toDictGo, hin]]
      rw [ih, dlookup_append]
      cases hd : dlookup k d with
      | some v => simp
      | none =>
        by_cases hkey : stripS lbl = k <;> simp [dlookup, firstLookup, hkey]
    · rw [show toDictGo d order ((lbl, txt) :: rs) = toDictGo d order rs from by
        simp [toDictGo, hin]]
      rw [ih]
      cases hd : dlookup k d with
      | some v => simp [hd]
      | none =>
        have hkey : stripS lbl ≠ k := by
          intro hcon; rw [hcon] at hin; exact hin hd
        simp [hd, firstLookup, hkey]

theorem to_dict_lookup (k : String) (lst : List (String × String)) :
    dlookup k (to_dict lst).1 = firstLookup k lst := by
  rw [to_dict, toDictGo_fst_lookup]
  simp [dlookup]

theorem toDictGo_snd :
    ∀ (rest d : List (String × String)) (order : List String),
    (∀ k, k ∈ order ↔ (dlookup k d).isSome = true) →
    (toDictGo d order rest).2 = addLabels order (rest.map (fun p => stripS p.1)) := by
  intro rest
  induction rest with
  | nil => intro d order _; simp [toDictGo, addLabels]
  | cons p rs ih =>
    intro d order hinv
    obtain ⟨lbl, txt⟩ := p
    by_cases hin : dlookup (stripS lbl) d = none
    · have hmem : stripS lbl ∉ order := by
        rw [hinv]; simp [hin]
      rw [show toDictGo d order ((lbl, txt) :: rs) =
          toDictGo (d ++ [(stripS lbl, txt)]) (order ++ [stripS lbl]) rs from by
        simp [toDictGo, hin]]
      rw [ih]
      · simp [addLabels, hmem]
      · intro k
        rw [dlookup_append, List.mem_append]
        cases hd : dlookup k d with
        | some v => simp [hinv k, hd]
        | none =>
          simp only [hd, Option.none_or]
          constructor
          · intro hmem2
            rcases hmem2 with h1 | h2
            · exact absurd ((hinv k).mp h1) (by simp [hd])
            · have hk : k = stripS lbl := by simpa using h2
              simp [dlookup, hk]
          · intro hsome
            right
            by_cases hkey : stripS lbl = k
            · simp [hkey]
            · rw [show dlookup k [(stripS lbl, txt)] = none from by
                simp [dlookup, hkey]] at hsome
              simp at hsome
    · have hmem : stripS lbl ∈ order := by
        rw [hinv]
        cases hd : dlookup (stripS lbl) d with
        | some v => simp
        | none => exact absurd hd hin
      rw [show toDictGo d order ((lbl, txt) :: rs) = toDictGo d order rs from by
        simp [toDictGo, hin]]
      rw [ih _ _ hinv]
      simp [addLabels, hmem]

theorem to_dict_snd (lst : List (String × String)) :
    (to_dict lst).2 = addLabels [] (lst.map (fun p => stripS p.1)) := by
  rw [to_dict, toDictGo_snd]
  intro k
  simp [dlookup]

theorem addLabels_spec : ∀ (l acc : List String),
    addLabels acc l = acc ++ (firstDedup l).filter (fun k => decide (k ∉ acc)) := by
  intro l
  induction l with
  | nil => intro acc; simp [addLabels, firstDedup]
  | cons x xs ih =>
    intro acc
    by_cases hx : x ∈ acc
    · rw [show addLabels acc (x :: xs) = addLabels acc xs from by simp [addLabels, hx]]
      rw [ih]
      congr 1
      rw [firstDedup, List.filter_cons, if_neg (by simp [hx]), List.filter_filter]
      apply List.filter_congr
      intro a _
      by_cases hax : a = x
      · subst hax; simp [hx]
      · simp [hax]
    · rw [show addLabels acc (x :: xs) = addLabels (acc ++ [x]) xs from by
        simp [addLabels, hx]]
      rw [ih]
      rw [firstDedup, List.filter_cons, if_pos (by simp [hx]), List.filter_filter]
      rw [List.append_assoc, List.singleton_append]
      congr 2
      apply List.filter_congr
      intro a _
      by_cases hax : a = x
      · subst hax; simp
      · simp [hax, List.mem_append, not_or]

theorem mem_firstDedup : ∀ (l : List String) (k : String),
    k ∈ firstDedup l ↔ k ∈ l := by
  intro l
  induction l with
  | nil => intro k; simp [firstDedup]
  | cons x xs ih =>
    intro k
    simp only [firstDedup, List.mem_cons, List.mem_filter]
    constructor
    · rintro (rfl | ⟨h1, _⟩)
      · exact Or.inl rfl
      · exact Or.inr ((ih k).mp h1)
    · rintro (rfl | hk)
      · exact Or.inl rfl
      · by_cases hx : k = x
        · exact Or.inl hx
        · exact Or.inr ⟨(ih k).mpr hk, by simp [hx]⟩

theorem nodup_firstDedup : ∀ (l : List String), (firstDedup l).Nodup := by
  intro l
  induction l with
  | nil => simp [firstDedup]
  | cons x xs ih =>
    rw [firstDedup]
    refine List.Nodup.cons ?_ (List.Nodup.filter _ ih)
    intro hx
    have h2 := (List.mem_filter.mp hx).2
    simp at h2

theorem firstDedup_eq_self : ∀ (l : List String), l.Nodup → firstDedup l = l := by
  intro l
  induction l with
  | nil => intro _; rfl
  | cons x xs ih =>
    intro h
    rw [firstDedup, ih (List.nodup_cons.mp h).2]
    rw [List.filter_eq_self.mpr]
    intro a ha
    have hx : x ∉ xs := (List.nodup_cons.mp h).1
    simp only [decide_eq_true_eq]
    intro hax
    exact hx (hax ▸ ha)

theorem addLabels_nil (l : List String) : addLabels [] l = firstDedup l := by
  rw [addLabels_spec, List.nil_append]
  apply List.filter_eq_self.mpr
  intro a _
  simp

theorem mem_addLabels (l acc : List String) (k : String) :
    k ∈ addLabels acc l ↔ k ∈ acc ∨ k ∈ l := by
  rw [addLabels_spec]
  simp only [List.mem_append, List.mem_filter, mem_firstDedup, decide_eq_true_eq]
  constructor
  · rintro (h | ⟨h, _⟩)
    · exact Or.inl h
    · exact Or.inr h
  · rintro (h | h)
    · exact Or.inl h
    · by_cases hacc : k ∈ acc
      · exact Or.inl hacc
      · exact Or.inr ⟨h, hacc⟩

theorem nodup_addLabels (l acc : List String) (h : acc.Nodup) :
    (addLabels acc l).Nodup := by
  rw [addLabels_spec]
  refine List.Nodup.append h (List.Nodup.filter _ (nodup_firstDedup l)) ?_
  intro a ha hb
  have h2 := (List.mem_filter.mp hb).2
  simp only [decide_eq_true_eq] at h2
  exact h2 ha

/-! ### compare_texts classification -/

theorem compare_status_match_iff (a b : String) :
    (compare_texts a b).1 = "MATCH" ↔ a = b := by
  rw [compare_texts]
  by_cases hab : a = b
  · simp [hab]
  · rw [if_neg hab]
    by_cases h1 : a = "" ∧ b ≠ ""
    · rw [if_pos h1]
      exact iff_of_false (by decide) hab
    · rw [if_neg h1]
      by_cases h2 : a ≠ "" ∧ b = ""
      · rw [if_pos h2]
        exact iff_of_false (by decide) hab
      · rw [if_neg h2]
        refine iff_of_false ?_ hab
        intro hcon
        have hlit : "MISMATCH" = "MATCH" := hcon
        exact absurd hlit (by decide)

theorem compare_missing_notice (a : String) (ha : a ≠ "") :
    compare_texts a "" = ("MISSING_IN_NOTICE", "Label missing in notice") := by
  rw [compare_texts, if_neg ha, if_neg (by simp), if_pos ⟨ha, rfl⟩]

theorem compare_missing_proxy (b : String) (hb : b ≠ "") :
    compare_texts "" b = ("MISSING_IN_PROXY", "Label missing in proxy") := by
  rw [compare_texts, if_neg (fun h => hb h.symm), if_pos ⟨rfl, hb⟩]

theorem compare_mismatch_ne (a b : String)
    (h : (compare_texts a b).1 = "MISMATCH") : a ≠ b := by
  intro hab
  rw [compare_texts, if_pos hab] at h
  exact absurd h (by decide)

/-! ### Membership in the comparison list -/

theorem buildComparisons_labels (pList nList : List (String × String)) :
    (buildComparisons pList nList).map (fun c => c.label) =
      all_labels (to_dict pList).2 (to_dict nList).2 := by
  rw [buildComparisons, List.map_map]
  have hid : ((fun c => c.label) ∘ mkComparison (to_dict pList).1 (to_dict nList).1) =
      fun lbl => lbl := by
    funext lbl; rfl
  rw [hid, List.map_id']

theorem mem_buildComparisons (pList nList : List (String × String)) (lbl : String)
    (h : lbl ∈ all_labels (to_dict pList).2 (to_dict nList).2) :
    mkComparison (to_dict pList).1 (to_dict nList).1 lbl ∈ buildComparisons pList nList := by
  rw [buildComparisons]
  exact List.mem_map_of_mem _ h

theorem firstLookup_isSome (k : String) : ∀ (lst : List (String × String)),
    (firstLookup k lst).isSome = true ↔ k ∈ lst.map (fun p => stripS p.1) := by
  intro lst
  induction lst with
  | nil => simp [firstLookup]
  | cons p rest ih =>
    obtain ⟨lbl, txt⟩ := p
    by_cases hk : stripS lbl = k
    · simp [firstLookup, hk]
    · rw [firstLookup, if_neg hk, ih]
      simp only [List.map_cons, List.mem_cons]
      constructor
      · exact Or.inr
      · rintro (h | h)
        · exact absurd h.symm hk
        · exact h

theorem lookup_some_mem_order (k : String) (lst : List (String × String)) (v : String)
    (h : dlookup k (to_dict lst).1 = some v) : k ∈ (to_dict lst).2 := by
  rw [to_dict_snd, addLabels_nil, mem_firstDedup]
  rw [to_dict_lookup] at h
  exact (firstLookup_isSome k lst).mp (by simp [h])

theorem firstLookup_some_mem (k : String) : ∀ (lst : List (String × String)) (v : String),
    firstLookup k lst = some v → ∃ p ∈ lst, p.2 = v := by
  intro lst
  induction lst with
  | nil => intro v h; cases h
  | cons p rest ih =>
    intro v h
    obtain ⟨lbl, txt⟩ := p
    by_cases hk : stripS lbl = k
    · rw [firstLookup, if_pos hk] at h
      cases h
      exact ⟨(lbl, v), List.mem_cons_self _ _, rfl⟩
    · rw [firstLookup, if_neg hk] at h
      obtain ⟨q, hq, hv⟩ := ih v h
      exact ⟨q, List.mem_cons_of_mem _ hq, hv⟩

/-! ### Extracted contents are fixed points of the baseline collapse -/

theorem closeContent_fix (buf : List (List Char)) :
    collapse_linebreaks (closeContent buf) = closeContent buf :=
  collapse_linebreaks_idem _

theorem closeItem_content (cur : Option (List Char)) (buf : List (List Char)) :
    ∀ p ∈ closeItem cur buf, p.2 = closeContent buf := by
  intro p hp
  cases cur with
  | none => simp [closeItem] at hp
  | some lab =>
    simp only [closeItem, List.mem_singleton] at hp
    rw [hp]

theorem splitGo_content_fix :
    ∀ (lines : List (List Char)) (cur : Option (List Char)) (buf : List (List Char)),
    ∀ p ∈ splitGo lines cur buf, collapse_linebreaks p.2 = p.2 := by
  intro lines
  induction lines with
  | nil =>
    intro cur buf p hp
    rw [closeItem_content cur buf p hp]
    exact closeContent_fix buf
  | cons ln rest ih =>
    intro cur buf p hp
    rw [splitGo] at hp
    cases hm : matchLabel ln with
    | some lr =>
      rw [hm] at hp
      simp only [Option.elim] at hp
      rcases List.mem_append.mp hp with h1 | h2
      · rw [closeItem_content cur buf p h1]
        exact closeContent_fix buf
      · exact ih _ _ p h2
    | none =>
      rw [hm] at hp
      simp only [Option.elim] at hp
      exact ih _ _ p hp

theorem split_content_fix (t : String) :
    ∀ p ∈ split_proposals t, collapse_linebreaks p.2 = p.2 := by
  intro p hp
  exact splitGo_content_fix _ none [] p hp

theorem mergeNote_content_fix (t : String) (lst : List (String × String))
    (hl : ∀ p ∈ lst, collapse_linebreaks p.2 = p.2) :
    ∀ p ∈ mergeNote lst (extract_note_block t), collapse_linebreaks p.2 = p.2 := by
  intro p hp
  cases hn : noteSearchGo false t.data with
  | none =>
    rw [show extract_note_block t = none from by rw [extract_note_block, hn]] at hp
    exact hl p hp
  | some g =>
    rw [show extract_note_block t = some ("NOTE", collapse_linebreaks ⟨g⟩) from by
      rw [extract_note_block, hn]] at hp
    rw [mergeNote] at hp
    by_cases hhas : hasNoteLabel lst
    · rw [if_pos hhas] at hp
      exact hl p hp
    · rw [if_neg hhas] at hp
      rcases List.mem_append.mp hp with h1 | h2
      · exact hl p h1
      · have hpn : p = ("NOTE", collapse_linebreaks ⟨g⟩) := by simpa using h2
        rw [hpn]
        exact collapse_linebreaks_idem _

theorem dict_value_fix (lst : List (String × String))
    (hl : ∀ p ∈ lst, collapse_linebreaks p.2 = p.2)
    (k v : String) (h : dlookup k (to_dict lst).1 = some v) :
    collapse_linebreaks v = v := by
  rw [to_dict_lookup] at h
  obtain ⟨p, hp, hv⟩ := firstLookup_some_mem k lst v h
  rw [← hv]
  exact hl p hp

theorem getD_content_fix (lst : List (String × String))
    (hl : ∀ p ∈ lst, collapse_linebreaks p.2 = p.2) (k : String) :
    collapse_linebreaks ((dlookup k (to_dict lst).1).getD "") =
      (dlookup k (to_dict lst).1).getD "" := by
  cases h : dlookup k (to_dict lst).1 with
  | none =>
    show collapse_linebreaks "" = ""
    decide
  | some v =>
    simp only [Option.getD_some]
    exact dict_value_fix lst hl k v h

/-! ### Region locator lemmas -/

theorem bigRect_iff (r : Rect) : bigRect r = true ↔ bigAnnotP r := by
  rw [bigRect, bigAnnotP]
  simp

theorem find?_first {α : Type} (p : α → Bool) :
    ∀ (l : List α) (r : α), l.find? p = some r →
    p r = true ∧ ∃ j : Nat, l[j]? = some r ∧
      ∀ (j' : Nat) (x : α), j' < j → l[j']? = some x → p x = false := by
  intro l
  induction l with
  | nil => intro r h; cases h
  | cons a t ih =>
    intro r h
    cases hp : p a with
    | true =>
      rw [List.find?_cons_of_pos _ hp] at h
      cases h
      exact ⟨hp, 0, by simp, fun j' x hj _ => absurd hj (Nat.not_lt_zero _)⟩
    | false =>
      rw [List.find?_cons_of_neg _ (by simp [hp])] at h
      obtain ⟨hr, j, hj, hearlier⟩ := ih r h
      refine ⟨hr, j + 1, by simpa using hj, ?_⟩
      intro j' x hj' hx
      cases j' with
      | zero =>
        have hax : a = x := by simpa using hx
        rw [← hax]; exact hp
      | succ j2 =>
        exact hearlier j2 x (Nat.lt_of_succ_lt_succ hj') (by simpa using hx)

theorem findAnnotGo_some : ∀ (pages : List Page) (i pno : Nat) (r : Rect),
    findAnnotGo i pages = some (pno, r) →
    ∃ (j : Nat) (page : Page), pno = i + j ∧ pages[j]? = some page ∧
      page.annots.find? bigRect = some r ∧
      ∀ (j' : Nat) (q : Page), j' < j → pages[j']? = some q →
        q.annots.find? bigRect = none := by
  intro pages
  induction pages with
  | nil => intro i pno r h; cases h
  | cons p rest ih =>
    intro i pno r h
    cases hp : p.annots.find? bigRect with
    | some r0 =>
      rw [show findAnnotGo i (p :: rest) = some (i, r0) from by
        rw [findAnnotGo, hp]] at h
      cases h
      exact ⟨0, p, by omega, by simp, hp,
        fun j' q hj _ => absurd hj (Nat.not_lt_zero _)⟩
    | none =>
      rw [show findAnnotGo i (p :: rest) = findAnnotGo (i + 1) rest from by
        rw [findAnnotGo, hp]] at h
      obtain ⟨j, page, hpno, hpage, hfind, hearly⟩ := ih (i + 1) pno r h
      refine ⟨j + 1, page, by omega, by simpa using hpage, hfind, ?_⟩
      intro j' q hj' hq
      cases j' with
      | zero =>
        have hpq : p = q := by simpa using hq
        rw [← hpq]; exact hp
      | succ j2 =>
        exact hearly j2 q (by omega) (by simpa using hq)

theorem findAnnotGo_none : ∀ (pages : List Page) (i : Nat),
    findAnnotGo i pages = none → ∀ q ∈ pages, q.annots.find? bigRect = none := by
  intro pages
  induction pages with
  | nil => intro i _ q hq; cases hq
  | cons p rest ih =>
    intro i h q hq
    cases hp : p.annots.find? bigRect with
    | some r0 =>
      rw [show findAnnotGo i (p :: rest) = some (i, r0) from by
        rw [findAnnotGo, hp]] at h
      cases h
    | none =>
      rw [show findAnnotGo i (p :: rest) = findAnnotGo (i + 1) rest from by
        rw [findAnnotGo, hp]] at h
      rcases List.mem_cons.mp hq with rfl | hq2
      · exact hp
      · exact ih (i + 1) h q hq2

theorem findLabelPageGo_some : ∀ (pages : List Page) (i : Nat)
    (res : Nat × Rect × String),
    findLabelPageGo i pages = some res →
    ∃ (j : Nat) (page : Page),
      res = (i + j, leftClip page, page.text (leftClip page)) ∧
      pages[j]? = some page ∧
      labelSearch (page.text (leftClip page)) = true ∧
      ∀ (j' : Nat) (q : Page), j' < j → pages[j']? = some q →
        labelSearch (q.text (leftClip q)) = false := by
  intro pages
  induction pages with
  | nil => intro i res h; cases h
  | cons p rest ih =>
    intro i res h
    cases hp : labelSearch (p.text (leftClip p)) with
    | true =>
      rw [show findLabelPageGo i (p :: rest) =
          some (i, leftClip p, p.text (leftClip p)) from by
        rw [findLabelPageGo, if_pos hp]] at h
      cases h
      exact ⟨0, p, by simp, by simp, hp,
        fun j' q hj _ => absurd hj (Nat.not_lt_zero _)⟩
    | false =>
      rw [show findLabelPageGo i (p :: rest) = findLabelPageGo (i + 1) rest from by
        rw [findLabelPageGo, if_neg (by simp [hp])]] at h
      obtain ⟨j, page, hres, hpage, hsearch, hearly⟩ := ih (i + 1) res h
      refine ⟨j + 1, page, by rw [hres]; congr 1; omega, by simpa using hpage,
        hsearch, ?_⟩
      intro j' q hj' hq
      cases j' with
      | zero =>
        have hpq : p = q := by simpa using hq
        rw [← hpq]; exact hp
      | succ j2 =>
        exact hearly j2 q (by omega) (by simpa using hq)

theorem findLabelPageGo_none : ∀ (pages : List Page) (i : Nat),
    findLabelPageGo i pages = none →
    ∀ q ∈ pages, labelSearch (q.text (leftClip q)) = false := by
  intro pages
  induction pages with
  | nil => intro i _ q hq; cases hq
  | cons p rest ih =>
    intro i h q hq
    cases hp : labelSearch (p.text (leftClip p)) with
    | true =>
      rw [show findLabelPageGo i (p :: rest) =
          some (i, leftClip p, p.text (leftClip p)) from by
        rw [findLabelPageGo, if_pos hp]] at h
      cases h
    | false =>
      rw [show findLabelPageGo i (p :: rest) = findLabelPageGo (i + 1) rest from by
        rw [findLabelPageGo, if_neg (by simp [hp])]] at h
      rcases List.mem_cons.mp hq with rfl | hq2
      · exact hp
      · exact ih (i + 1) h q hq2

theorem no_annot_of_find_none (doc : List Page)
    (h : ∀ q ∈ doc, q.annots.find? bigRect = none) :
    ∀ q ∈ doc, ∀ r ∈ q.annots, ¬ bigAnnotP r := by
  intro q hq r hr
  rw [← bigRect_iff]
  have h2 := List.find?_eq_none.mp (h q hq) r hr
  simp at h2
  simp [h2]

/-- Only the third classification branch of compare_texts can put the
whitespace reason into the reason list, and it fires exactly when the
re-collapsed contents coincide. -/
theorem ws_reason_mem (a b : String) (h : wsReason ∈ mismatchReasons a b) :
    collapse_linebreaks a = collapse_linebreaks b := by
  rw [mismatchReasons] at h
  rcases List.mem_append.mp h with h12 | h3
  · rcases List.mem_append.mp h12 with h1 | h2
    · by_cases hc : pyLower a = pyLower b
      · rw [if_pos hc] at h1
        have := List.mem_singleton.mp h1
        exact absurd this (by decide)
      · rw [if_neg hc] at h1
        cases h1
    · by_cases hp : stripPunc a = stripPunc b
      · rw [if_pos hp] at h2
        have := List.mem_singleton.mp h2
        exact absurd this (by decide)
      · rw [if_neg hp] at h2
        cases h2
  · by_cases hw : collapse_linebreaks a = collapse_linebreaks b
    · exact hw
    · rw [if_neg hw] at h3
      cases h3

/-! ## The claims -/

/-- C1 (code_bug evidence): when both documents' region texts segment into
zero items and no note block is found, `build_report` produces the empty
comparison list — no synthetic NoLabelsFound result is created, so the
output is indistinguishable from an all-match report on a non-empty agenda. -/
theorem claim_C1_no_labels_empty_report :
    split_proposals "" = [] ∧ extract_note_block "" = none ∧
      build_report "" "" true = [] ∧ build_report "" "" false = [] := by
  refine ⟨by decide, by decide, by decide, by decide⟩

/-- C2 counterexample: for A mapping "3." to "Approve Merger." and B mapping
"3." to "approve merger", the comparison result has status MISMATCH with the
generic reason "content differs": the reason list is empty, so it includes
neither "case-only difference" nor "punctuation-only difference", refuting
the claim. -/
theorem claim_C2_counterexample :
    (buildComparisons [("3.", "Approve Merger.")] [("3.", "approve merger")]).map
        (fun c => (c.label, c.status, c.reason)) =
      [("3.", "MISMATCH", "content differs")] ∧
    mismatchReasons "Approve Merger." "approve merger" = [] := by
  refine ⟨by decide, by decide⟩

/-- C2 amended: for those inputs the status is MISMATCH but the reason is
the generic "content differs"; no specific reason fires, because the
case-folded contents still differ (the trailing period) and the
punctuation-stripped contents still differ (the letter case). -/
theorem claim_C2_amended :
    compare_texts "Approve Merger." "approve merger" =
      ("MISMATCH", "content differs") ∧
    pyLower "Approve Merger." ≠ pyLower "approve merger" ∧
    stripPunc "Approve Merger." ≠ stripPunc "approve merger" := by
  refine ⟨by decide, by decide, by decide⟩

/-- C3 counterexample: the label "1." is present in document A's mapping
(with empty content, as segmentation of the text "1." produces) and absent
from document B's mapping, yet its comparison status is MATCH, not
MISSING_IN_NOTICE — refuting the claim's universal quantification. -/
theorem claim_C3_counterexample :
    dlookup "1." (to_dict (split_proposals "1.")).1 = some "" ∧
    dlookup "1." (to_dict (split_proposals "")).1 = none ∧
    (buildComparisons (split_proposals "1.") (split_proposals "")).map
        (fun c => (c.label, c.status)) = [("1.", "MATCH")] := by
  refine ⟨by decide, by decide, by decide⟩

/-- C3 amended: for every label present in A's mapping with non-empty
content and absent from B's, the status is MISSING_IN_NOTICE; symmetrically
a label absent from A and present in B with non-empty content gets
MISSING_IN_PROXY.  (Labels with empty stored content are classified by
content, not presence — see C9.) -/
theorem claim_C3_amended (pList nList : List (String × String)) (lbl : String) :
    ((∃ a, dlookup lbl (to_dict pList).1 = some a ∧ a ≠ "") →
      dlookup lbl (to_dict nList).1 = none →
      ∃ c ∈ buildComparisons pList nList,
        c.label = lbl ∧ c.status = "MISSING_IN_NOTICE") ∧
    (dlookup lbl (to_dict pList).1 = none →
      (∃ b, dlookup lbl (to_dict nList).1 = some b ∧ b ≠ "") →
      ∃ c ∈ buildComparisons pList nList,
        c.label = lbl ∧ c.status = "MISSING_IN_PROXY") := by
  constructor
  · rintro ⟨a, ha, hane⟩ hb
    have hmem : lbl ∈ all_labels (to_dict pList).2 (to_dict nList).2 := by
      rw [all_labels, mem_addLabels, mem_addLabels]
      exact Or.inl (Or.inr (lookup_some_mem_order lbl pList a ha))
    refine ⟨mkComparison (to_dict pList).1 (to_dict nList).1 lbl,
      mem_buildComparisons _ _ _ hmem, rfl, ?_⟩
    show (compare_texts ((dlookup lbl (to_dict pList).1).getD "")
        ((dlookup lbl (to_dict nList).1).getD "")).1 = "MISSING_IN_NOTICE"
    rw [ha, hb]
    simp only [Option.getD_some, Option.getD_none]
    rw [compare_missing_notice a hane]
  · rintro ha ⟨b, hb, hbne⟩
    have hmem : lbl ∈ all_labels (to_dict pList).2 (to_dict nList).2 := by
      rw [all_labels, mem_addLabels]
      exact Or.inr (lookup_some_mem_order lbl nList b hb)
    refine ⟨mkComparison (to_dict pList).1 (to_dict nList).1 lbl,
      mem_buildComparisons _ _ _ hmem, rfl, ?_⟩
    show (compare_texts ((dlookup lbl (to_dict pList).1).getD "")
        ((dlookup lbl (to_dict nList).1).getD "")).1 = "MISSING_IN_PROXY"
    rw [ha, hb]
    simp only [Option.getD_some, Option.getD_none]
    rw [compare_missing_proxy b hbne]

/-- Witness for C3 amended at concrete item lists. -/
theorem claim_C3_witness :
    (∃ c ∈ buildComparisons [("1.", "x")] [("2.", "y")],
      c.label = "1." ∧ c.status = "MISSING_IN_NOTICE") ∧
    (∃ c ∈ buildComparisons [("1.", "x")] [("2.", "y")],
      c.label = "2." ∧ c.status = "MISSING_IN_PROXY") :=
  ⟨(claim_C3_amended [("1.", "x")] [("2.", "y")] "1.").1
      ⟨"x", by decide, by decide⟩ (by decide),
    (claim_C3_amended [("1.", "x")] [("2.", "y")] "2.").2
      (by decide) ⟨"y", by decide, by decide⟩⟩

/-- C7: the baseline whitespace-collapse normalization is idempotent. -/
theorem claim_C7_collapse_idempotent (c : String) :
    collapse_linebreaks (collapse_linebreaks c) = collapse_linebreaks c :=
  collapse_linebreaks_idem c

/-- C8: labels are unique within one document's mapping (the discovery-order
list never repeats a label), and a label's stored content is the content of
the first item of the input list carrying that (stripped) label — later
duplicates are ignored, never overwritten. -/
theorem claim_C8_first_occurrence_wins (lst : List (String × String)) (k : String) :
    (to_dict lst).2.Nodup ∧ dlookup k (to_dict lst).1 = firstLookup k lst := by
  constructor
  · rw [to_dict_snd, addLabels_nil]
    exact nodup_firstDedup _
  · exact to_dict_lookup k lst

/-- C9: missing-status classification is decided by empty content, not by
label absence: compare_texts("","") is an exact MATCH; a label present only
in A whose stored content is empty is reported MATCH rather than a missing
status; and a label present in both mappings with empty content in A and
non-empty content in B is reported MISSING_IN_PROXY even though the label
exists in A. -/
theorem claim_C9_empty_content_classification :
    compare_texts "" "" = ("MATCH", "Exact match") ∧
    (∀ (pList nList : List (String × String)) (lbl : String),
      dlookup lbl (to_dict pList).1 = some "" →
      dlookup lbl (to_dict nList).1 = none →
      ∃ c ∈ buildComparisons pList nList, c.label = lbl ∧ c.status = "MATCH") ∧
    (∀ (pList nList : List (String × String)) (lbl b : String),
      dlookup lbl (to_dict pList).1 = some "" →
      dlookup lbl (to_dict nList).1 = some b → b ≠ "" →
      ∃ c ∈ buildComparisons pList nList,
        c.label = lbl ∧ c.status = "MISSING_IN_PROXY") := by
  refine ⟨by decide, ?_, ?_⟩
  · intro pList nList lbl ha hb
    have hmem : lbl ∈ all_labels (to_dict pList).2 (to_dict nList).2 := by
      rw [all_labels, mem_addLabels, mem_addLabels]
      exact Or.inl (Or.inr (lookup_some_mem_order lbl pList "" ha))
    refine ⟨mkComparison (to_dict pList).1 (to_dict nList).1 lbl,
      mem_buildComparisons _ _ _ hmem, rfl, ?_⟩
    show (compare_texts ((dlookup lbl (to_dict pList).1).getD "")
        ((dlookup lbl (to_dict nList).1).getD "")).1 = "MATCH"
    rw [ha, hb]
    decide
  · intro pList nList lbl b ha hb hbne
    have hmem : lbl ∈ all_labels (to_dict pList).2 (to_dict nList).2 := by
      rw [all_labels, mem_addLabels, mem_addLabels]
      exact Or.inl (Or.inr (lookup_some_mem_order lbl pList "" ha))
    refine ⟨mkComparison (to_dict pList).1 (to_dict nList).1 lbl,
      mem_buildComparisons _ _ _ hmem, rfl, ?_⟩
    show (compare_texts ((dlookup lbl (to_dict pList).1).getD "")
        ((dlookup lbl (to_dict nList).1).getD "")).1 = "MISSING_IN_PROXY"
    rw [ha, hb]
    simp only [Option.getD_some]
    rw [compare_missing_proxy b hbne]

/-- C4: for items extracted by split_proposals, a label present in both
mappings is reported MATCH exactly when the two stored contents agree under
the baseline whitespace-collapse key; since extracted contents are already
collapse-normal, the authoritative decision is literal (case- and
punctuation-sensitive) equality, and raw contents differing only in
whitespace runs or linebreaks compare as MATCH. -/
theorem claim_C4_match_iff_collapse (tA tB : String) (lbl a b : String)
    (ha : dlookup lbl (to_dict (split_proposals tA)).1 = some a)
    (hb : dlookup lbl (to_dict (split_proposals tB)).1 = some b) :
    ∃ c ∈ buildComparisons (split_proposals tA) (split_proposals tB),
      c.label = lbl ∧
      (c.status = "MATCH" ↔ collapse_linebreaks a = collapse_linebreaks b) := by
  have hfa : collapse_linebreaks a = a :=
    dict_value_fix _ (split_content_fix tA) lbl a ha
  have hfb : collapse_linebreaks b = b :=
    dict_value_fix _ (split_content_fix tB) lbl b hb
  have hmem : lbl ∈ all_labels (to_dict (split_proposals tA)).2
      (to_dict (split_proposals tB)).2 := by
    rw [all_labels, mem_addLabels, mem_addLabels]
    exact Or.inl (Or.inr (lookup_some_mem_order lbl _ a ha))
  refine ⟨mkComparison (to_dict (split_proposals tA)).1
      (to_dict (split_proposals tB)).1 lbl,
    mem_buildComparisons _ _ _ hmem, rfl, ?_⟩
  show (compare_texts ((dlookup lbl (to_dict (split_proposals tA)).1).getD "")
      ((dlookup lbl (to_dict (split_proposals tB)).1).getD "")).1 = "MATCH" ↔
    collapse_linebreaks a = collapse_linebreaks b
  rw [ha, hb]
  simp only [Option.getD_some]
  rw [compare_status_match_iff, hfa, hfb]

/-- Witness for C4: the spec scenario where the raw contents differ only by
internal double spaces; segmentation stores the collapsed content for both,
and the result is MATCH. -/
theorem claim_C4_witness :
    ∃ c ∈ buildComparisons (split_proposals "1. Ratify Auditor ABC LLP")
        (split_proposals "1. Ratify  Auditor  ABC LLP"),
      c.label = "1." ∧
      (c.status = "MATCH" ↔
        collapse_linebreaks "Ratify Auditor ABC LLP" =
          collapse_linebreaks "Ratify Auditor ABC LLP") :=
  claim_C4_match_iff_collapse "1. Ratify Auditor ABC LLP"
    "1. Ratify  Auditor  ABC LLP" "1." "Ratify Auditor ABC LLP"
    "Ratify Auditor ABC LLP" (by decide) (by decide)

/-- C5: the label sequence of the comparison results is duplicate-free,
contains exactly the union of the two (stripped) label sets, and equals A's
labels in discovery order followed by the labels unique to B in B's
discovery order. -/
theorem claim_C5_label_universe (pList nList : List (String × String)) :
    ((buildComparisons pList nList).map (fun c => c.label)).Nodup ∧
    (∀ k, k ∈ (buildComparisons pList nList).map (fun c => c.label) ↔
      (k ∈ pList.map (fun p => stripS p.1) ∨ k ∈ nList.map (fun p => stripS p.1))) ∧
    (buildComparisons pList nList).map (fun c => c.label) =
      firstDedup (pList.map (fun p => stripS p.1)) ++
        (firstDedup (nList.map (fun p => stripS p.1))).filter
          (fun k => decide (k ∉ pList.map (fun p => stripS p.1))) := by
  have hlabels := buildComparisons_labels pList nList
  have hpo : (to_dict pList).2 = firstDedup (pList.map (fun p => stripS p.1)) := by
    rw [to_dict_snd, addLabels_nil]
  have hno : (to_dict nList).2 = firstDedup (nList.map (fun p => stripS p.1)) := by
    rw [to_dict_snd, addLabels_nil]
  have h1 : addLabels [] (to_dict pList).2 = (to_dict pList).2 := by
    rw [addLabels_nil]
    exact firstDedup_eq_self _ (by rw [hpo]; exact nodup_firstDedup _)
  have hall : all_labels (to_dict pList).2 (to_dict nList).2 =
      firstDedup (pList.map (fun p => stripS p.1)) ++
        (firstDedup (nList.map (fun p => stripS p.1))).filter
          (fun k => decide (k ∉ pList.map (fun p => stripS p.1))) := by
    rw [all_labels, h1, addLabels_spec, hpo, hno,
      firstDedup_eq_self (firstDedup (nList.map (fun p => stripS p.1)))
        (nodup_firstDedup _)]
    congr 1
    apply List.filter_congr
    intro k _
    simp [mem_firstDedup]
  refine ⟨?_, ?_, ?_⟩
  · rw [hlabels, all_labels]
    exact nodup_addLabels _ _ (nodup_addLabels _ _ List.nodup_nil)
  · intro k
    rw [hlabels, all_labels, mem_addLabels, mem_addLabels, hpo, hno]
    simp [mem_firstDedup]
  · rw [hlabels, hall]

/-- C6 counterexample: with no annotations present, the locator does NOT
return the first page whose left-hand clip CONTAINS a line matching the
label grammar: page 0's clip text contains such a line (after a header
line), yet the code's anchored `label_pattern.search` fails on that text and
the locator returns page 1. -/
theorem claim_C6_counterexample :
    (∃ ln ∈ splitlinesL ("Meeting Agenda\n1. Elect directors".data),
      (matchLabel ln).isSome = true) ∧
    find_rectangle_annotation [pageHeaderLabel, pageDirectLabel] = none ∧
    (pick_agenda_clip [pageHeaderLabel, pageDirectLabel]).map
      (fun t => t.1) = some 1 := by
  refine ⟨⟨"1. Elect directors".data, by decide, by decide⟩, by rfl, by rfl⟩

/-- C6 amended: the region locator follows the priority order — (1) the
first oversized marked rectangle in page order, expanded by 6 points per
side and clipped to the page; (2) otherwise the first page whose left-hand
clip text STARTS (after optional leading whitespace) with a label-grammar
match, since the search is anchored to the start of the extracted text
rather than testing each line; (3) otherwise the first page's left-hand
clip.  On every document with at least one page the locator returns a
region (no error). -/
theorem claim_C6_amended (doc : List Page) (hne : doc ≠ []) :
    ∃ pno rect txt, pick_agenda_clip doc = some (pno, rect, txt) ∧
      (RegionFromAnnot doc pno rect txt ∨ RegionFromScan doc pno rect txt ∨
        RegionFallback doc pno rect txt) := by
  rw [pick_agenda_clip.eq_def]
  cases hA : find_rectangle_annotation doc with
  | some pr =>
    obtain ⟨pno, r⟩ := pr
    obtain ⟨j, page, hpno, hpage, hfind, hearly⟩ := findAnnotGo_some doc 0 pno r hA
    have hpage2 : doc[pno]? = some page := by
      rw [hpno]; simpa using hpage
    refine ⟨pno, expandClip page.rect r, page.text (expandClip page.rect r), ?_, ?_⟩
    · simp [hpage2]
    · left
      rw [RegionFromAnnot]
      refine ⟨page, hpage2, ?_, ?_⟩
      · intro i q hi hq r2 hr2
        have hfnone : q.annots.find? bigRect = none := by
          refine hearly i q (by omega) ?_
          simpa using hq
        rw [← bigRect_iff]
        have h2 := List.find?_eq_none.mp hfnone r2 hr2
        simp at h2
        simp [h2]
      · obtain ⟨hbig, jj, hjj, hfirst⟩ := find?_first bigRect page.annots r hfind
        refine ⟨jj, r, hjj, (bigRect_iff r).mp hbig, ?_, rfl, rfl⟩
        intro j' r' hj' hr'
        have h2 := hfirst j' r' hj' hr'
        rw [← bigRect_iff]
        simp [h2]
  | none =>
    cases hL : findLabelPageGo 0 doc with
    | some res =>
      obtain ⟨j, page, hres, hpage, hsearch, hearly⟩ := findLabelPageGo_some doc 0 res hL
      refine ⟨j, leftClip page, page.text (leftClip page), ?_, ?_⟩
      · simp [hres]
      · right; left
        rw [RegionFromScan]
        refine ⟨no_annot_of_find_none doc (findAnnotGo_none doc 0 hA), page,
          by simpa using hpage, rfl, rfl, hsearch, ?_⟩
        intro i q hi hq
        exact hearly i q hi (by simpa using hq)
    | none =>
      cases doc with
      | nil => exact absurd rfl hne
      | cons p0 rest =>
        refine ⟨0, leftClip p0, p0.text (leftClip p0), rfl, ?_⟩
        right; right
        rw [RegionFallback]
        exact ⟨no_annot_of_find_none _ (findAnnotGo_none _ 0 hA),
          findLabelPageGo_none _ 0 hL, rfl, p0, by simp, rfl, rfl⟩

/-- Witness for C6 amended on a concrete one-page document with no
annotation and no label in its text (the fallback case). -/
theorem claim_C6_witness :
    ∃ pno rect txt, pick_agenda_clip [pageNoLabel] = some (pno, rect, txt) ∧
      (RegionFromAnnot [pageNoLabel] pno rect txt ∨
        RegionFromScan [pageNoLabel] pno rect txt ∨
        RegionFallback [pageNoLabel] pno rect txt) :=
  claim_C6_amended [pageNoLabel] (by simp)

/-- C10: every content the pipeline hands to compare_texts is already
whitespace-collapsed, so a MISMATCH produced by build_report can never carry
the "whitespace/linebreak differences only (after collapse)" reason — that
classification branch is unreachable from the pipeline. -/
theorem claim_C10_ws_reason_unreachable (pRaw nRaw : String) (inc : Bool) :
    ∀ c ∈ build_report pRaw nRaw inc,
      collapse_linebreaks c.proxyText = c.proxyText ∧
      collapse_linebreaks c.noticeText = c.noticeText ∧
      (c.status = "MISMATCH" →
        wsReason ∉ mismatchReasons c.proxyText c.noticeText) := by
  intro c hc
  simp only [build_report, buildComparisons] at hc
  have hpfix : ∀ p ∈ (if inc then
      mergeNote (split_proposals pRaw) (extract_note_block pRaw)
      else split_proposals pRaw), collapse_linebreaks p.2 = p.2 := by
    cases inc
    · simpa using split_content_fix pRaw
    · simpa using mergeNote_content_fix pRaw _ (split_content_fix pRaw)
  have hnfix : ∀ p ∈ (if inc then
      mergeNote (split_proposals nRaw) (extract_note_block nRaw)
      else split_proposals nRaw), collapse_linebreaks p.2 = p.2 := by
    cases inc
    · simpa using split_content_fix nRaw
    · simpa using mergeNote_content_fix nRaw _ (split_content_fix nRaw)
  obtain ⟨lbl, hlbl, hceq⟩ := List.mem_map.mp hc
  rw [← hceq]
  simp only [mkComparison]
  refine ⟨getD_content_fix _ hpfix lbl, getD_content_fix _ hnfix lbl, ?_⟩
  intro hst hws
  have hne := compare_mismatch_ne _ _ hst
  have hcol := ws_reason_mem _ _ hws
  rw [getD_content_fix _ hpfix lbl, getD_content_fix _ hnfix lbl] at hcol
  exact hne hcol

/-- Witness for C10 at a concrete mismatching report. -/
theorem claim_C10_witness :
    collapse_linebreaks "alpha" = "alpha" ∧ collapse_linebreaks "beta" = "beta" ∧
      ("MISMATCH" = "MISMATCH" → wsReason ∉ mismatchReasons "alpha" "beta") :=
  claim_C10_ws_reason_unreachable "1. alpha" "1. beta" true
    ⟨"1.", "alpha", "beta", "MISMATCH", "content differs"⟩ (by decide)

/-- Witness for C9 at concrete item lists. -/
theorem claim_C9_witness :
    (∃ c ∈ buildComparisons [("1.", "")] [],
      c.label = "1." ∧ c.status = "MATCH") ∧
    (∃ c ∈ buildComparisons [("1.", "")] [("1.", "x")],
      c.label = "1." ∧ c.status = "MISSING_IN_PROXY") :=
  ⟨claim_C9_empty_content_classification.2.1 [("1.", "")] [] "1."
      (by decide) (by decide),
    claim_C9_empty_content_classification.2.2 [("1.", "")] [("1.", "x")] "1." "x"
      (by decide) (by decide) (by decide)⟩

end QC
